import Mathlib

/-! Verification of a Rust graph-analysis program (src/main.rs): edge-list
ingestion, adjacency construction, random pair sampling, breadth-first
shortest-path distances, depth-first connected components, and average
degree.  Hash maps and hash sets are modelled as association lists and
lists carrying an explicit iteration order; machine integers are naturals
with explicit bounds where overflow matters. -/

/-- Vertices are machine-word identifiers, modelled as naturals. -/
abbrev Vertex := Nat

/-- An edge is an ordered pair of vertices as read from the input. -/
abbrev Edge := Vertex × Vertex

/-- The adjacency structure: an association list from a vertex to its
neighbour list, modelling a hash map from vertex to neighbour set together
with its iteration order. -/
abbrev AdjacencyList := List (Vertex × List Vertex)

/-- Association-list lookup, first match wins, modelling hash-map lookup. -/
def lookupA {α : Type} : List (Vertex × α) → Vertex → Option α
  | [], _ => none
  | p :: rest, k => if p.1 = k then some p.2 else lookupA rest k

/-- Neighbour list of a vertex, empty when the vertex is absent, modelling
the source's graph.get(v).unwrap_or(empty set). -/
def nbrs (G : AdjacencyList) (v : Vertex) : List Vertex :=
  (lookupA G v).getD []

/-- Key list of the adjacency structure, modelling hash-map key iteration. -/
def keys (G : AdjacencyList) : List Vertex := G.map Prod.fst

/-- Insert a vertex into a neighbour list if absent, modelling hash-set
insert. -/
def insertNbr (ns : List Vertex) (v : Vertex) : List Vertex :=
  if v ∈ ns then ns else ns ++ [v]

/-- Update the entry of u with one more neighbour v, creating the entry when
absent, modelling adjacency_list.entry(u).or_insert_with(new).insert(v). -/
def addNbr : AdjacencyList → Vertex → Vertex → AdjacencyList
  | [], u, v => [(u, [v])]
  | p :: rest, u, v =>
      if p.1 = u then (p.1, insertNbr p.2 v) :: rest
      else p :: addNbr rest u v

/-- Insertion of one edge in both directions, the loop body of
build_adjacency_list in src/main.rs. -/
def addEdge (G : AdjacencyList) (e : Edge) : AdjacencyList :=
  addNbr (addNbr G e.1 e.2) e.2 e.1

/-- The function build_adjacency_list of src/main.rs: fold over the edges,
inserting each edge in both directions. -/
def build_adjacency_list (edges : List Edge) : AdjacencyList :=
  edges.foldl addEdge []

/-- Symmetry of an adjacency structure, as stated by the specification:
v is a neighbour of u exactly when u is a neighbour of v. -/
def Symm (G : AdjacencyList) : Prop :=
  ∀ u v : Vertex, v ∈ nbrs G u ↔ u ∈ nbrs G v

/-- Reachability in exactly n steps along neighbour lists. -/
inductive ReachN (G : AdjacencyList) : Vertex → Vertex → Nat → Prop
  | refl (u : Vertex) : ReachN G u u 0
  | step {u v w : Vertex} {n : Nat} :
      v ∈ nbrs G u → ReachN G v w n → ReachN G u w (n + 1)

/-- Reachability in some number of steps. -/
def Reach (G : AdjacencyList) (u v : Vertex) : Prop := ∃ n, ReachN G u v n

/-- The property that n is the minimum number of edges on a walk from s
to v. -/
def isShortest (G : AdjacencyList) (s v : Vertex) (n : Nat) : Prop :=
  ReachN G s v n ∧ ∀ m, ReachN G s v m → n ≤ m

/-- Reachability avoiding a vertex list A: every vertex of the walk,
endpoints included, lies outside A. -/
inductive ReachAvoid (G : AdjacencyList) (A : List Vertex) : Vertex → Vertex → Prop
  | refl (u : Vertex) : u ∉ A → ReachAvoid G A u u
  | step {u v w : Vertex} :
      u ∉ A → v ∈ nbrs G u → ReachAvoid G A v w → ReachAvoid G A u w

/-- ASCII whitespace recognised by the model of trim from the Rust standard
library; the input format uses only these whitespace characters. -/
def isWs (c : Char) : Bool :=
  c = ' ' || c = '\t' || c = '\n' || c = '\r'

/-- Model of trim on a character list: drop whitespace from both ends. -/
def trimChars (s : List Char) : List Char :=
  ((s.dropWhile isWs).reverse.dropWhile isWs).reverse

/-- Numeric value of a digit list read in base ten. -/
def digitsVal (ds : List Char) : Nat :=
  ds.foldl (fun a c => a * 10 + (c.toNat - 48)) 0

/-- Model of parse into usize from the Rust standard library: an optional
leading plus sign, then at least one ASCII digit, with the value bounded by
the 64-bit machine word. -/
def parseUsize (s : List Char) : Option Nat :=
  let t := match s with
    | '+' :: rest => rest
    | _ => s
  if t ≠ [] ∧ t.all Char.isDigit ∧ digitsVal t < 2 ^ 64 then some (digitsVal t)
  else none

/-- Model of split on a comma: the list of comma-separated fields; there is
always at least one field. -/
def splitComma : List Char → List (List Char)
  | [] => [[]]
  | c :: rest =>
      if c = ',' then [] :: splitComma rest
      else
        match splitComma rest with
        | [] => [[c]]
        | f :: fs => (c :: f) :: fs

/-- Parsing of one line inside read_edge_list of src/main.rs: the first two
comma-separated fields are trimmed and parsed, and the line yields an edge
exactly when both parse; later fields are never examined. -/
def parseLine (line : List Char) : Option Edge :=
  match (splitComma line).map (fun f => parseUsize (trimChars f)) with
  | some u :: some v :: _ => some (u, v)
  | _ => none

/-- The function read_edge_list of src/main.rs, on an input already split
into lines: each line yielding an edge contributes it in order, all other
lines are dropped. -/
def read_edge_list (lines : List (List Char)) : List Edge :=
  lines.filterMap parseLine

/-- Validity of the random index oracle used to model choose_multiple of
two elements from a slice: every draw yields two distinct in-range
positions. -/
def OracleOk (nodes : List Vertex) (oracle : Nat → Nat × Nat) : Prop :=
  ∀ i, (oracle i).1 < nodes.length ∧ (oracle i).2 < nodes.length ∧
    (oracle i).1 ≠ (oracle i).2

/-- One loop iteration of pair_up_nodes of src/main.rs: draw two positions
from the oracle and read the vertices stored there. -/
def pairDraw (nodes : List Vertex) (oracle : Nat → Nat × Nat) (i : Nat) : Edge :=
  (nodes.getD (oracle i).1 0, nodes.getD (oracle i).2 0)

/-- The function pair_up_nodes of src/main.rs, with the process-wide random
number generator modelled as an index oracle: the loop pushes one pair per
iteration until num_pairs pairs are collected. -/
def pair_up_nodes (nodes : List Vertex) (num_pairs : Nat)
    (oracle : Nat → Nat × Nat) : List Edge :=
  (List.range num_pairs).map (pairDraw nodes oracle)

/-- An oracle that always draws the first two positions: a legitimate
outcome of choose_multiple. -/
def cexOracle : Nat → Nat × Nat := fun _ => (0, 1)

/-- The function average_degree of src/main.rs: the sum over all stored
entries of the neighbour-set size, divided by the number of entries; the
f64 arithmetic is idealised as exact rational arithmetic. -/
def average_degree (G : AdjacencyList) : ℚ :=
  ((G.map (fun p => ((p.2.length : ℚ)))).sum) / ((G.length : ℚ))

/-- Specification-side definition for the average-degree claim: the
arithmetic mean of the neighbour-set size over all key vertices. -/
def specMeanDegree (G : AdjacencyList) : ℚ :=
  (((keys G).map (fun v => (((nbrs G v).length : ℚ)))).sum) / (((keys G).length : ℚ))

/-- All vertices mentioned by the adjacency structure: keys and neighbours. -/
def vertsList (G : AdjacencyList) : List Vertex :=
  G.foldr (fun p acc => p.1 :: (p.2 ++ acc)) []

/-- Distance of a vertex as recorded so far, defaulting to zero, modelling
distances.get(current).unwrap_or(0) from src/main.rs. -/
def dval (D : List (Vertex × Nat)) (x : Vertex) : Nat := (lookupA D x).getD 0

/-- Inner loop of bfs_distances of src/main.rs: walk the neighbour list of
the dequeued vertex sitting at distance d, enqueueing, marking visited and
recording distance d+1 for each unvisited neighbour. -/
def visitNbrs (d : Nat) :
    List Vertex → List Vertex → List Vertex → List (Vertex × Nat) →
    List Vertex × List Vertex × List (Vertex × Nat)
  | [], queue, visited, dist => (queue, visited, dist)
  | nb :: nbs, queue, visited, dist =>
      if nb ∈ visited then visitNbrs d nbs queue visited dist
      else visitNbrs d nbs (queue ++ [nb]) (nb :: visited) ((nb, d + 1) :: dist)

/-- Outer loop of bfs_distances of src/main.rs, with explicit fuel bounding
the number of dequeue operations; the fuel supplied by bfs_distances is
proved sufficient below. -/
def bfsLoop (G : AdjacencyList) :
    Nat → List Vertex → List Vertex → List (Vertex × Nat) → List (Vertex × Nat)
  | 0, _, _, dist => dist
  | fuel + 1, queue, visited, dist =>
      match queue with
      | [] => dist
      | current :: rest =>
          let d := dval dist current
          let s := visitNbrs d (nbrs G current) rest visited dist
          bfsLoop G fuel s.1 s.2.1 s.2.2

/-- The function bfs_distances of src/main.rs: start from the source with
distance zero and run the queue to exhaustion. -/
def bfs_distances (G : AdjacencyList) (start : Vertex) : List (Vertex × Nat) :=
  bfsLoop G ((vertsList G).length + 2) [start] [start] [(start, 0)]

/-- Sentinel distance used by the caller in main: the largest usize value. -/
def USIZE_MAX : Nat := 2 ^ 64 - 1

/-- Distance query as performed by main of src/main.rs:
distances.get(v).unwrap_or(the usize maximum). -/
def queryDistance (D : List (Vertex × Nat)) (v : Vertex) : Nat :=
  (lookupA D v).getD USIZE_MAX

/-- Fuel for the iterative depth-first search: one unit per stack pop, one
pop for the seed and at most one push burst per first visit. -/
def dfsFuel (G : AdjacencyList) : Nat :=
  1 + Finset.sum (vertsList G).toFinset (fun v => 1 + (nbrs G v).length)

/-- The loop of dfs of src/main.rs with the stack explicit (head is the
top) and fuel bounding the number of pops; the fuel supplied by dfs is
proved sufficient below. -/
def dfsLoop (G : AdjacencyList) :
    Nat → List Vertex → List Vertex → List Vertex → List Vertex × List Vertex
  | 0, _, visited, component => (visited, component)
  | fuel + 1, stack, visited, component =>
      match stack with
      | [] => (visited, component)
      | node :: stk =>
          if node ∈ visited then dfsLoop G fuel stk visited component
          else dfsLoop G fuel ((nbrs G node).reverse ++ stk)
            (node :: visited) (node :: component)

/-- The function dfs of src/main.rs: explore from start, extending the
given visited set and component. -/
def dfs (G : AdjacencyList) (start : Vertex) (visited component : List Vertex) :
    List Vertex × List Vertex :=
  dfsLoop G (dfsFuel G) [start] visited component

/-- The loop of connected_nodes of src/main.rs over the key list: seed a
depth-first search at every not yet visited key. -/
def cnLoop (G : AdjacencyList) :
    List Vertex → List Vertex → List (List Vertex) → List (List Vertex)
  | [], _, comps => comps
  | k :: ks, visited, comps =>
      if k ∈ visited then cnLoop G ks visited comps
      else cnLoop G ks (dfs G k visited []).1 (comps ++ [(dfs G k visited []).2])

/-- The function connected_nodes of src/main.rs: run dfs from every not yet
visited key, collecting one component per run. -/
def connected_nodes (G : AdjacencyList) : List (List Vertex) :=
  cnLoop G (keys G) [] []

/-- Loop invariant of bfs_distances, relating the queue, the visited set
and the distance map to the graph and the source. -/
structure BfsInv (G : AdjacencyList) (s : Vertex) (q V : List Vertex)
    (D : List (Vertex × Nat)) : Prop where
  start_vis : s ∈ V
  q_vis : ∀ x ∈ q, x ∈ V
  dom : ∀ x, (lookupA D x).isSome ↔ x ∈ V
  correct : ∀ x ∈ V, ∃ n, lookupA D x = some n ∧ isShortest G s x n
  sorted : (q.map (dval D)).Pairwise (· ≤ ·)
  window : ∀ a ∈ q.map (dval D), ∀ b ∈ q.map (dval D), a ≤ b + 1
  processed : ∀ x ∈ V, x ∈ q ∨ ∀ y ∈ nbrs G x, y ∈ V
  level : ∀ c cs, q = c :: cs → ∀ x n, ReachN G s x n → n ≤ dval D c → x ∈ V

/- Basic lookup lemmas. -/

theorem lookupA_eq_some_mem {α : Type} {G : List (Vertex × α)} {k : Vertex}
    {v : α} (h : lookupA G k = some v) : (k, v) ∈ G := by
  induction G with
  | nil => simp [lookupA] at h
  | cons p rest ih =>
      obtain ⟨a, b⟩ := p
      by_cases hp : a = k
      · subst hp
        simp [lookupA] at h
        subst h
        exact List.mem_cons_self _ _
      · simp [lookupA, hp] at h
        exact List.mem_cons_of_mem _ (ih h)

theorem lookupA_isSome_iff {α : Type} {G : List (Vertex × α)} {k : Vertex} :
    (lookupA G k).isSome ↔ k ∈ G.map Prod.fst := by
  induction G with
  | nil => simp [lookupA]
  | cons p rest ih =>
      obtain ⟨a, b⟩ := p
      by_cases hp : a = k
      · subst hp
        simp [lookupA]
      · have hk : ¬ k = a := fun h => hp h.symm
        simp [lookupA, hp, ih, hk]

theorem lookupA_append {α : Type} (E D : List (Vertex × α)) (k : Vertex) :
    lookupA (E ++ D) k =
      match lookupA E k with
      | some v => some v
      | none => lookupA D k := by
  induction E with
  | nil => simp [lookupA]
  | cons p rest ih =>
      by_cases hp : p.1 = k
      · simp [lookupA, hp]
      · simp [lookupA, hp, ih]

theorem lookupA_cons_ne {α : Type} {p : Vertex × α} {D : List (Vertex × α)}
    {k : Vertex} (h : p.1 ≠ k) : lookupA (p :: D) k = lookupA D k := by
  simp [lookupA, h]

/- Characterisation of addNbr. -/

theorem lookupA_addNbr (G : AdjacencyList) (u v x : Vertex) :
    lookupA (addNbr G u v) x =
      if x = u then some (insertNbr (nbrs G u) v) else lookupA G x := by
  induction G with
  | nil =>
      by_cases hx : x = u
      · subst hx
        simp [addNbr, lookupA, insertNbr, nbrs]
      · have hux : ¬ u = x := fun h => hx h.symm
        simp [addNbr, lookupA, nbrs, hx, hux]
  | cons p rest ih =>
      obtain ⟨a, b⟩ := p
      by_cases hp : a = u
      · subst hp
        by_cases hx : x = a
        · subst hx
          simp [addNbr, lookupA, nbrs]
        · have hax : ¬ a = x := fun h => hx h.symm
          simp [addNbr, lookupA, hx, hax]
      · by_cases hax : a = x
        · subst hax
          have hxu : ¬ a = u := hp
          simp [addNbr, lookupA, hp, hxu]
        · simp [addNbr, hp, lookupA, hax, ih, nbrs]

theorem nbrs_addNbr (G : AdjacencyList) (u v x : Vertex) :
    nbrs (addNbr G u v) x =
      if x = u then insertNbr (nbrs G u) v else nbrs G x := by
  by_cases hx : x = u <;> simp [nbrs, lookupA_addNbr, hx]

theorem mem_insertNbr {ns : List Vertex} {v y : Vertex} :
    y ∈ insertNbr ns v ↔ y ∈ ns ∨ y = v := by
  by_cases h : v ∈ ns
  · simp [insertNbr, h]
    intro hy; rw [hy]; exact h
  · simp [insertNbr, h]

theorem mem_nbrs_addNbr {G : AdjacencyList} {u v x y : Vertex} :
    y ∈ nbrs (addNbr G u v) x ↔ (x = u ∧ y = v) ∨ y ∈ nbrs G x := by
  rw [nbrs_addNbr]
  by_cases hx : x = u
  · subst hx
    simp [mem_insertNbr]
    tauto
  · simp [hx]

theorem keys_addNbr {G : AdjacencyList} {u v x : Vertex} :
    x ∈ keys (addNbr G u v) ↔ x ∈ keys G ∨ x = u := by
  have h := lookupA_addNbr G u v x
  unfold keys
  constructor
  · intro hx
    rw [← lookupA_isSome_iff] at hx
    by_cases hxu : x = u
    · right; exact hxu
    · left
      rw [← lookupA_isSome_iff]
      rw [h, if_neg hxu] at hx
      exact hx
  · intro hx
    rw [← lookupA_isSome_iff, h]
    rcases hx with hx | hx
    · by_cases hxu : x = u
      · simp [hxu]
      · rw [if_neg hxu]
        rw [← lookupA_isSome_iff] at hx
        exact hx
    · simp [hx]

theorem mem_nbrs_addEdge {G : AdjacencyList} {e : Edge} {x y : Vertex} :
    y ∈ nbrs (addEdge G e) x ↔
      (x = e.2 ∧ y = e.1) ∨ (x = e.1 ∧ y = e.2) ∨ y ∈ nbrs G x := by
  unfold addEdge
  rw [mem_nbrs_addNbr, mem_nbrs_addNbr]

theorem symm_addEdge {G : AdjacencyList} (e : Edge) (h : Symm G) :
    Symm (addEdge G e) := by
  intro u v
  rw [mem_nbrs_addEdge, mem_nbrs_addEdge, h u v]
  tauto

theorem symm_foldl_addEdge (edges : List Edge) :
    ∀ G : AdjacencyList, Symm G → Symm (edges.foldl addEdge G) := by
  induction edges with
  | nil => intro G h; simpa using h
  | cons e rest ih =>
      intro G h
      simpa using ih (addEdge G e) (symm_addEdge e h)

theorem build_symm (edges : List Edge) : Symm (build_adjacency_list edges) := by
  unfold build_adjacency_list
  exact symm_foldl_addEdge edges [] (by intro u v; simp [nbrs, lookupA])

theorem nbrs_mono_addEdge {G : AdjacencyList} {e : Edge} {x y : Vertex}
    (h : y ∈ nbrs G x) : y ∈ nbrs (addEdge G e) x := by
  rw [mem_nbrs_addEdge]
  tauto

theorem nbrs_mono_foldl (edges : List Edge) :
    ∀ (G : AdjacencyList) (x y : Vertex),
      y ∈ nbrs G x → y ∈ nbrs (edges.foldl addEdge G) x := by
  induction edges with
  | nil => intro G x y h; simpa using h
  | cons e rest ih =>
      intro G x y h
      simpa using ih (addEdge G e) x y (nbrs_mono_addEdge h)

theorem edge_mem_foldl (edges : List Edge) :
    ∀ (G : AdjacencyList) (e : Edge), e ∈ edges →
      e.2 ∈ nbrs (edges.foldl addEdge G) e.1 ∧
      e.1 ∈ nbrs (edges.foldl addEdge G) e.2 := by
  induction edges with
  | nil => intro G e h; simp at h
  | cons e0 rest ih =>
      intro G e h
      rcases List.mem_cons.mp h with h | h
      · subst h
        constructor
        · refine nbrs_mono_foldl rest (addEdge G e) e.1 e.2 ?_
          rw [mem_nbrs_addEdge]
          tauto
        · refine nbrs_mono_foldl rest (addEdge G e) e.2 e.1 ?_
          rw [mem_nbrs_addEdge]
          tauto
      · exact ih (addEdge G e0) e h

theorem keys_addEdge {G : AdjacencyList} {e : Edge} {x : Vertex} :
    x ∈ keys (addEdge G e) ↔ x ∈ keys G ∨ x = e.1 ∨ x = e.2 := by
  unfold addEdge
  rw [keys_addNbr, keys_addNbr]
  tauto

theorem keys_foldl_addEdge (edges : List Edge) :
    ∀ (G : AdjacencyList) (x : Vertex),
      x ∈ keys (edges.foldl addEdge G) ↔
        x ∈ keys G ∨ ∃ e ∈ edges, x = e.1 ∨ x = e.2 := by
  induction edges with
  | nil => intro G x; simp
  | cons e rest ih =>
      intro G x
      simp only [List.foldl_cons]
      rw [ih (addEdge G e) x, keys_addEdge]
      simp only [List.mem_cons]
      constructor
      · rintro ((h | h | h) | ⟨e', he', h⟩)
        · exact Or.inl h
        · exact Or.inr ⟨e, Or.inl rfl, Or.inl h⟩
        · exact Or.inr ⟨e, Or.inl rfl, Or.inr h⟩
        · exact Or.inr ⟨e', Or.inr he', h⟩
      · rintro (h | ⟨e', (he' | he'), h⟩)
        · exact Or.inl (Or.inl h)
        · subst he'
          rcases h with h | h
          · exact Or.inl (Or.inr (Or.inl h))
          · exact Or.inl (Or.inr (Or.inr h))
        · exact Or.inr ⟨e', he', h⟩

theorem keys_build (edges : List Edge) (x : Vertex) :
    x ∈ keys (build_adjacency_list edges) ↔ ∃ e ∈ edges, x = e.1 ∨ x = e.2 := by
  unfold build_adjacency_list
  rw [keys_foldl_addEdge]
  simp [keys]

/- Edge-ingestion lemmas. -/

theorem splitComma_ne_nil (s : List Char) : splitComma s ≠ [] := by
  cases s with
  | nil => simp [splitComma]
  | cons c rest =>
      by_cases hc : c = ','
      · simp [splitComma, hc]
      · cases h : splitComma rest with
        | nil => simp [splitComma, hc, h]
        | cons f fs => simp [splitComma, hc, h]

theorem parseUsize_nil : parseUsize [] = none := by
  simp [parseUsize]

/- Claim theorems for ingestion. -/

/-- C3: for every edge list, the adjacency structure returned by
build_adjacency_list is symmetric: v is in the neighbour set of u exactly
when u is in the neighbour set of v. -/
theorem C3_build_adjacency_symmetric (edges : List Edge) (u v : Vertex) :
    v ∈ nbrs (build_adjacency_list edges) u ↔
      u ∈ nbrs (build_adjacency_list edges) v :=
  build_symm edges u v

/-- C6: build_adjacency_list records every input edge in both directions,
its key set holds exactly the vertices appearing in at least one edge, and
the empty edge list yields the empty structure. -/
theorem C6_build_adjacency_contract (edges : List Edge) :
    (∀ e ∈ edges,
        e.2 ∈ nbrs (build_adjacency_list edges) e.1 ∧
        e.1 ∈ nbrs (build_adjacency_list edges) e.2) ∧
    (∀ x, x ∈ keys (build_adjacency_list edges) ↔
        ∃ e ∈ edges, x = e.1 ∨ x = e.2) ∧
    build_adjacency_list [] = [] := by
  refine ⟨?_, ?_, rfl⟩
  · intro e he
    exact edge_mem_foldl edges [] e he
  · intro x
    exact keys_build edges x

/-- C6 witness: on the single edge (1, 2) both directions are recorded. -/
theorem C6_build_adjacency_contract_witness :
    (2 : Vertex) ∈ nbrs (build_adjacency_list [(1, 2)]) 1 ∧
    (1 : Vertex) ∈ nbrs (build_adjacency_list [(1, 2)]) 2 :=
  (C6_build_adjacency_contract [(1, 2)]).1 (1, 2) (by decide)

/-- C9: read_edge_list parses comma-separated lines with surrounding
whitespace into vertex pairs, and a line that does not parse into two
non-negative integers is dropped without aborting ingestion of later
lines; the line " 3 , 4 " parses to the edge (3, 4) and the line "abc,2"
is dropped while later lines are still ingested. -/
theorem C9_read_edge_list_drops_bad_lines :
    (∀ l ls, parseLine l = none → read_edge_list (l :: ls) = read_edge_list ls) ∧
    (∀ l ls e, parseLine l = some e →
        read_edge_list (l :: ls) = e :: read_edge_list ls) ∧
    parseLine (" 3 , 4 ".data) = some (3, 4) ∧
    parseLine ("abc,2".data) = none ∧
    read_edge_list [" 3 , 4 ".data, "abc,2".data, "5,6".data] = [(3, 4), (5, 6)] := by
  refine ⟨?_, ?_, by decide, by decide, by decide⟩
  · intro l ls h
    simp [read_edge_list, h]
  · intro l ls e h
    simp [read_edge_list, h]

/-- C9 witness: dropping the malformed line "abc,2" leaves the ingestion
of the remaining input unchanged. -/
theorem C9_witness :
    read_edge_list ["abc,2".data, "5,6".data] = read_edge_list ["5,6".data] :=
  C9_read_edge_list_drops_bad_lines.1 ("abc,2".data) ["5,6".data] (by decide)

/-- C10: a line whose first two comma-separated fields parse, after
trimming, as non-negative integers yields the edge of those two fields
regardless of trailing fields; the line "1,2,3" yields the edge (1, 2). -/
theorem C10_trailing_fields_ignored :
    (∀ (line : List Char) (u v : Vertex),
        parseUsize (trimChars ((splitComma line).getD 0 [])) = some u →
        parseUsize (trimChars ((splitComma line).getD 1 [])) = some v →
        parseLine line = some (u, v)) ∧
    parseLine ("1,2,3".data) = some (1, 2) ∧
    read_edge_list ["1,2,3".data] = [(1, 2)] := by
  refine ⟨?_, by decide, by decide⟩
  intro line u v h1 h2
  obtain ⟨f0, rest0, hsplit⟩ : ∃ f0 rest0, splitComma line = f0 :: rest0 := by
    cases h : splitComma line with
    | nil => exact absurd h (splitComma_ne_nil line)
    | cons a b => exact ⟨a, b, rfl⟩
  cases rest0 with
  | nil =>
      rw [hsplit] at h2
      simp only [List.getD, List.get?, Option.getD_none, Option.getD_some] at h2
      rw [show trimChars [] = [] from rfl, parseUsize_nil] at h2
      exact absurd h2 (by simp)
  | cons f1 rest1 =>
      rw [hsplit] at h1 h2
      simp only [List.getD, List.get?, Option.getD_none, Option.getD_some] at h1 h2
      simp [parseLine, hsplit, h1, h2]

/-- C10 witness: the general statement applied to the line "1,2,3". -/
theorem C10_witness : parseLine ("1,2,3".data) = some (1, 2) :=
  C10_trailing_fields_ignored.1 ("1,2,3".data) 1 2 (by decide) (by decide)

/- Pair-sampler claims. -/

theorem cexOracle_ok (nodes : List Vertex) (h : 2 ≤ nodes.length) :
    OracleOk nodes cexOracle := by
  intro i
  refine ⟨?_, ?_, ?_⟩ <;> simp [cexOracle] <;> omega

/-- C5 counterexample: the node list [1, 1, 2] contains the two distinct
vertices 1 and 2, yet a legitimate draw of two distinct positions yields
the pair (1, 1), whose two components are the same vertex; the claim as
stated over every list with two distinct vertices is therefore false. -/
theorem C5_counterexample :
    OracleOk [1, 1, 2] cexOracle ∧
    (1 : Vertex) ∈ [1, 1, 2] ∧ (2 : Vertex) ∈ [1, 1, 2] ∧ (1 : Vertex) ≠ 2 ∧
    pair_up_nodes [1, 1, 2] 1 cexOracle = [(1, 1)] := by
  refine ⟨cexOracle_ok _ (by decide), by decide, by decide, by decide, by decide⟩

/-- C5 (amended): for every duplicate-free vertex list with at least two
elements, every target count and every valid draw oracle, pair_up_nodes
returns exactly num_pairs ordered pairs, each made of two distinct
vertices of the list. -/
theorem C5_pair_up_nodes_amended (nodes : List Vertex) (num_pairs : Nat)
    (oracle : Nat → Nat × Nat) (hnodup : nodes.Nodup)
    (hlen : 2 ≤ nodes.length) (horacle : OracleOk nodes oracle) :
    (pair_up_nodes nodes num_pairs oracle).length = num_pairs ∧
    ∀ p ∈ pair_up_nodes nodes num_pairs oracle,
      p.1 ∈ nodes ∧ p.2 ∈ nodes ∧ p.1 ≠ p.2 := by
  constructor
  · simp [pair_up_nodes]
  · intro p hp
    simp only [pair_up_nodes, List.mem_map, List.mem_range] at hp
    obtain ⟨i, _, hi⟩ := hp
    obtain ⟨h1, h2, hne⟩ := horacle i
    subst hi
    unfold pairDraw
    rw [List.getD_eq_getElem nodes 0 h1, List.getD_eq_getElem nodes 0 h2]
    refine ⟨List.getElem_mem h1, List.getElem_mem h2, ?_⟩
    intro hEq
    exact hne ((hnodup.getElem_inj_iff).mp hEq)

/-- C5 witness: five pairs drawn from a six-vertex duplicate-free list. -/
theorem C5_witness :
    (pair_up_nodes [1, 2, 3, 4, 5, 6] 5 cexOracle).length = 5 :=
  (C5_pair_up_nodes_amended [1, 2, 3, 4, 5, 6] 5 cexOracle (by decide)
    (by decide) (cexOracle_ok _ (by decide))).1

/- Average-degree claim. -/

theorem nbrs_cons_self {a : Vertex} {b : List Vertex} {rest : AdjacencyList} :
    nbrs ((a, b) :: rest) a = b := by
  simp [nbrs, lookupA]

theorem nbrs_cons_ne {a : Vertex} {b : List Vertex} {rest : AdjacencyList}
    {v : Vertex} (h : a ≠ v) : nbrs ((a, b) :: rest) v = nbrs rest v := by
  simp [nbrs, lookupA, h]

theorem degree_map_eq (G : AdjacencyList) (hnd : (keys G).Nodup) :
    (keys G).map (fun v => (((nbrs G v).length : ℚ))) =
      G.map (fun p => ((p.2.length : ℚ))) := by
  induction G with
  | nil => simp [keys]
  | cons p rest ih =>
      obtain ⟨a, b⟩ := p
      have hk : keys ((a, b) :: rest) = a :: keys rest := by simp [keys]
      rw [hk] at hnd
      have ha : a ∉ keys rest := (List.nodup_cons.mp hnd).1
      have hrest : (keys rest).Nodup := (List.nodup_cons.mp hnd).2
      rw [hk]
      simp only [List.map_cons]
      congr 1
      · rw [nbrs_cons_self]
      · rw [← ih hrest]
        apply List.map_congr_left
        intro v hv
        have hav : a ≠ v := fun h => ha (h ▸ hv)
        rw [nbrs_cons_ne hav]

/-- C8: on a non-empty structure with duplicate-free keys, average_degree
is the arithmetic mean of the neighbour-set sizes over the key vertices,
and on the path 1-2-3 it equals 4/3. -/
theorem C8_average_degree (G : AdjacencyList) (hne : G ≠ [])
    (hnd : (keys G).Nodup) :
    average_degree G = specMeanDegree G ∧
    average_degree [(1, [2]), (2, [1, 3]), (3, [2])] = 4 / 3 := by
  constructor
  · unfold average_degree specMeanDegree
    rw [degree_map_eq G hnd]
    have : (keys G).length = G.length := by simp [keys]
    rw [this]
  · unfold average_degree
    norm_num

/-- C8 witness: average degree of the path 1-2-3. -/
theorem C8_witness :
    average_degree [(1, [2]), (2, [1, 3]), (3, [2])] = 4 / 3 :=
  (C8_average_degree [(1, [2]), (2, [1, 3]), (3, [2])] (by decide) (by decide)).2

/- Reachability lemmas. -/

theorem reachN_zero {G : AdjacencyList} {u v : Vertex}
    (h : ReachN G u v 0) : u = v := by
  cases h
  rfl

theorem isShortest_self (G : AdjacencyList) (s : Vertex) :
    isShortest G s s 0 :=
  ⟨ReachN.refl s, fun m _ => Nat.zero_le m⟩

theorem isShortest_unique {G : AdjacencyList} {s v : Vertex} {n m : Nat}
    (h1 : isShortest G s v n) (h2 : isShortest G s v m) : n = m :=
  Nat.le_antisymm (h1.2 m h2.1) (h2.2 n h1.1)

theorem reachN_succ_tail {G : AdjacencyList} {u w : Vertex} {n : Nat} :
    ReachN G u w (n + 1) ↔ ∃ y, ReachN G u y n ∧ w ∈ nbrs G y := by
  constructor
  · intro h
    induction n generalizing u with
    | zero =>
        cases h with
        | step hv hr =>
            rename_i v
            have := reachN_zero hr
            subst this
            exact ⟨u, ReachN.refl u, hv⟩
    | succ n ih =>
        cases h with
        | step hv hr =>
            obtain ⟨y, hy, hw⟩ := ih hr
            exact ⟨y, ReachN.step hv hy, hw⟩
  · rintro ⟨y, hy, hw⟩
    induction hy with
    | refl u => exact ReachN.step hw (ReachN.refl w)
    | step hv _ ih => exact ReachN.step hv (ih hw)

theorem reachN_trans {G : AdjacencyList} {u v w : Vertex} {m n : Nat}
    (h1 : ReachN G u v m) (h2 : ReachN G v w n) : ReachN G u w (m + n) := by
  induction h1 with
  | refl u => simpa using h2
  | step hv _ ih =>
      rw [Nat.add_right_comm]
      exact ReachN.step hv (ih h2)

theorem reach_trans {G : AdjacencyList} {u v w : Vertex}
    (h1 : Reach G u v) (h2 : Reach G v w) : Reach G u w := by
  obtain ⟨m, hm⟩ := h1
  obtain ⟨n, hn⟩ := h2
  exact ⟨m + n, reachN_trans hm hn⟩

theorem reach_refl (G : AdjacencyList) (u : Vertex) : Reach G u u :=
  ⟨0, ReachN.refl u⟩

theorem reach_symm {G : AdjacencyList} (hs : Symm G) {u v : Vertex}
    (h : Reach G u v) : Reach G v u := by
  obtain ⟨n, hn⟩ := h
  induction hn with
  | refl u => exact reach_refl G u
  | @step u' v' w' n' hv hr ih =>
      refine reach_trans ih ⟨1, ?_⟩
      exact ReachN.step ((hs u' v').mp hv) (ReachN.refl u')

theorem reach_closed_subset {G : AdjacencyList} {V : List Vertex}
    (hcl : ∀ a ∈ V, ∀ b ∈ nbrs G a, b ∈ V) :
    ∀ {u x : Vertex} {n : Nat}, ReachN G u x n → u ∈ V → x ∈ V := by
  intro u x n h
  induction h with
  | refl u => exact fun h => h
  | @step u' v' w' n' hv hr ih =>
      intro hu
      exact ih (hcl u' hu v' hv)

/- Vertex-universe lemmas. -/

theorem mem_vertsList {G : AdjacencyList} {x : Vertex} :
    x ∈ vertsList G ↔ ∃ p ∈ G, x = p.1 ∨ x ∈ p.2 := by
  induction G with
  | nil => simp [vertsList]
  | cons p rest ih =>
      constructor
      · intro h
        simp only [vertsList, List.foldr, List.mem_cons, List.mem_append] at h
        rcases h with h | h | h
        · exact ⟨p, List.mem_cons_self _ _, Or.inl h⟩
        · exact ⟨p, List.mem_cons_self _ _, Or.inr h⟩
        · obtain ⟨q, hq, hx⟩ := ih.mp h
          exact ⟨q, List.mem_cons_of_mem _ hq, hx⟩
      · rintro ⟨q, hq, hx⟩
        simp only [vertsList, List.foldr, List.mem_cons, List.mem_append]
        rcases List.mem_cons.mp hq with hq | hq
        · subst hq
          rcases hx with hx | hx
          · exact Or.inl hx
          · exact Or.inr (Or.inl hx)
        · exact Or.inr (Or.inr (ih.mpr ⟨q, hq, hx⟩))

theorem nbrs_subset_verts {G : AdjacencyList} {x y : Vertex}
    (h : y ∈ nbrs G x) : y ∈ vertsList G := by
  unfold nbrs at h
  cases hl : lookupA G x with
  | none => rw [hl] at h; simp at h
  | some ns =>
      rw [hl] at h
      simp at h
      have := lookupA_eq_some_mem hl
      rw [mem_vertsList]
      exact ⟨(x, ns), this, Or.inr h⟩

theorem keys_subset_verts {G : AdjacencyList} {x : Vertex}
    (h : x ∈ keys G) : x ∈ vertsList G := by
  unfold keys at h
  obtain ⟨p, hp, hx⟩ := List.mem_map.mp h
  rw [mem_vertsList]
  exact ⟨p, hp, Or.inl hx.symm⟩

/- Lookup on freshly inserted blocks. -/

theorem lookupA_eq_none {α : Type} {E : List (Vertex × α)} {x : Vertex}
    (h : x ∉ E.map Prod.fst) : lookupA E x = none := by
  rw [← Option.not_isSome_iff_eq_none]
  intro hs
  exact h (lookupA_isSome_iff.mp hs)

theorem lookupA_const {α : Type} {E : List (Vertex × α)} {c : α} {x : Vertex}
    (hc : ∀ p ∈ E, p.2 = c) (hx : x ∈ E.map Prod.fst) :
    lookupA E x = some c := by
  induction E with
  | nil => simp at hx
  | cons p rest ih =>
      by_cases hp : p.1 = x
      · have : p.2 = c := hc p (List.mem_cons_self _ _)
        simp [lookupA, hp, this]
      · simp only [List.map_cons, List.mem_cons] at hx
        rcases hx with hx | hx
        · exact absurd hx.symm hp
        · rw [lookupA_cons_ne hp]
          exact ih (fun q hq => hc q (List.mem_cons_of_mem _ hq)) hx

theorem lookupA_newBlock (L : List Vertex) (c : Nat) (D : List (Vertex × Nat))
    (x : Vertex) :
    lookupA ((L.map (fun y => (y, c))).reverse ++ D) x =
      if x ∈ L then some c else lookupA D x := by
  by_cases hx : x ∈ L
  · have hc : ∀ p ∈ (L.map (fun y => (y, c))).reverse, p.2 = c := by
      intro p hp
      rw [List.mem_reverse] at hp
      obtain ⟨y, _, hy⟩ := List.mem_map.mp hp
      rw [← hy]
    have hmem : x ∈ ((L.map (fun y => (y, c))).reverse).map Prod.fst := by
      simp only [List.map_reverse, List.map_map, List.mem_reverse]
      simpa using hx
    have h1 := lookupA_const hc hmem
    rw [lookupA_append, h1, if_pos hx]
  · have h1 : lookupA ((L.map (fun y => (y, c))).reverse) x = none := by
      apply lookupA_eq_none
      simp only [List.map_reverse, List.map_map, List.mem_reverse]
      simpa using hx
    rw [lookupA_append, h1, if_neg hx]

theorem pairwise_le_of_all {l : List Nat}
    (h : ∀ a ∈ l, ∀ b ∈ l, a ≤ b) : l.Pairwise (· ≤ ·) := by
  induction l with
  | nil => exact List.Pairwise.nil
  | cons a t ih =>
      refine List.Pairwise.cons ?_ (ih ?_)
      · intro b hb
        exact h a (List.mem_cons_self _ _) b (List.mem_cons_of_mem _ hb)
      · intro x hx y hy
        exact h x (List.mem_cons_of_mem _ hx) y (List.mem_cons_of_mem _ hy)

theorem visitNbrs_spec (d : Nat) (nbs : List Vertex) :
    ∀ (queue V : List Vertex) (D : List (Vertex × Nat)),
      ∃ L : List Vertex,
        visitNbrs d nbs queue V D =
          (queue ++ L, L.reverse ++ V, (L.map (fun x => (x, d + 1))).reverse ++ D) ∧
        L.Nodup ∧
        (∀ x ∈ L, x ∈ nbs ∧ x ∉ V) ∧
        (∀ x ∈ nbs, x ∉ V → x ∈ L) := by
  induction nbs with
  | nil =>
      intro queue V D
      exact ⟨[], by simp [visitNbrs], by simp, by simp, by simp⟩
  | cons nb nbs ih =>
      intro queue V D
      by_cases hnb : nb ∈ V
      · obtain ⟨L, hL, hnd, hprop, hcompl⟩ := ih queue V D
        refine ⟨L, ?_, hnd, ?_, ?_⟩
        · simpa [visitNbrs, hnb] using hL
        · intro x hx
          obtain ⟨h1, h2⟩ := hprop x hx
          exact ⟨List.mem_cons_of_mem _ h1, h2⟩
        · intro x hx hxv
          rcases List.mem_cons.mp hx with hx | hx
          · subst hx
            exact absurd hnb hxv
          · exact hcompl x hx hxv
      · obtain ⟨L, hL, hnd, hprop, hcompl⟩ := ih (queue ++ [nb]) (nb :: V) ((nb, d + 1) :: D)
        refine ⟨nb :: L, ?_, ?_, ?_, ?_⟩
        · have hstep : visitNbrs d (nb :: nbs) queue V D
              = visitNbrs d nbs (queue ++ [nb]) (nb :: V) ((nb, d + 1) :: D) := by
            simp [visitNbrs, hnb]
          rw [hstep, hL]
          refine Prod.ext ?_ (Prod.ext ?_ ?_) <;> simp
        · refine List.nodup_cons.mpr ⟨?_, hnd⟩
          intro hmem
          exact (hprop nb hmem).2 (List.mem_cons_self _ _)
        · intro x hx
          rcases List.mem_cons.mp hx with hx | hx
          · subst hx
            exact ⟨List.mem_cons_self _ _, hnb⟩
          · obtain ⟨h1, h2⟩ := hprop x hx
            exact ⟨List.mem_cons_of_mem _ h1, fun hv => h2 (List.mem_cons_of_mem _ hv)⟩
        · intro x hx hxv
          rcases List.mem_cons.mp hx with hx | hx
          · subst hx
            exact List.mem_cons_self _ _
          · by_cases hxnb : x = nb
            · subst hxnb
              exact List.mem_cons_self _ _
            · refine List.mem_cons_of_mem _ (hcompl x hx ?_)
              intro hmem
              rcases List.mem_cons.mp hmem with h | h
              · exact hxnb h
              · exact hxv h

theorem bfs_step_inv (G : AdjacencyList) (s current : Vertex)
    (rest V : List Vertex) (D : List (Vertex × Nat)) (L : List Vertex)
    (inv : BfsInv G s (current :: rest) V D)
    (hLp : ∀ x ∈ L, x ∈ nbrs G current ∧ x ∉ V)
    (hLc : ∀ x ∈ nbrs G current, x ∉ V → x ∈ L) :
    BfsInv G s (rest ++ L) (L.reverse ++ V)
      ((L.map (fun x => (x, dval D current + 1))).reverse ++ D) := by
  have hcur : current ∈ V := inv.q_vis current (List.mem_cons_self _ _)
  obtain ⟨dc, hdc, hshc⟩ := inv.correct current hcur
  have hdval : dval D current = dc := by simp [dval, hdc]
  have hlook : ∀ x, lookupA ((L.map (fun y => (y, dval D current + 1))).reverse ++ D) x
      = if x ∈ L then some (dval D current + 1) else lookupA D x :=
    fun x => lookupA_newBlock L (dval D current + 1) D x
  have hVL : ∀ x ∈ V, x ∉ L := fun x hx hxl => (hLp x hxl).2 hx
  have hdval' : ∀ x ∈ V,
      dval ((L.map (fun y => (y, dval D current + 1))).reverse ++ D) x = dval D x := by
    intro x hx
    have h1 : lookupA ((L.map (fun y => (y, dval D current + 1))).reverse ++ D) x
        = lookupA D x := by
      rw [hlook x, if_neg (hVL x hx)]
    show (lookupA ((L.map (fun y => (y, dval D current + 1))).reverse ++ D) x).getD 0
      = (lookupA D x).getD 0
    rw [h1]
  have hdvalL : ∀ x ∈ L,
      dval ((L.map (fun y => (y, dval D current + 1))).reverse ++ D) x
        = dval D current + 1 := by
    intro x hx
    have h1 : lookupA ((L.map (fun y => (y, dval D current + 1))).reverse ++ D) x
        = some (dval D current + 1) := by
      rw [hlook x, if_pos hx]
    show (lookupA ((L.map (fun y => (y, dval D current + 1))).reverse ++ D) x).getD 0
      = dval D current + 1
    rw [h1]
    rfl
  have hsorted := inv.sorted
  rw [List.map_cons] at hsorted
  have hsort1 : ∀ b ∈ rest.map (dval D), dval D current ≤ b :=
    (List.pairwise_cons.mp hsorted).1
  have hsort2 : (rest.map (dval D)).Pairwise (· ≤ ·) :=
    (List.pairwise_cons.mp hsorted).2
  have hwin : ∀ a ∈ rest.map (dval D), a ≤ dval D current + 1 := by
    intro a ha
    refine inv.window a ?_ (dval D current) ?_
    · rw [List.map_cons]
      exact List.mem_cons_of_mem _ ha
    · rw [List.map_cons]
      exact List.mem_cons_self _ _
  have hmapRest : rest.map
      (dval ((L.map (fun y => (y, dval D current + 1))).reverse ++ D))
      = rest.map (dval D) :=
    List.map_congr_left
      (fun y hy => hdval' y (inv.q_vis y (List.mem_cons_of_mem _ hy)))
  refine ⟨?_, ?_, ?_, ?_, ?_, ?_, ?_, ?_⟩
  · exact List.mem_append.mpr (Or.inr inv.start_vis)
  · intro x hx
    rcases List.mem_append.mp hx with hx | hx
    · exact List.mem_append.mpr (Or.inr (inv.q_vis x (List.mem_cons_of_mem _ hx)))
    · exact List.mem_append.mpr (Or.inl (List.mem_reverse.mpr hx))
  · intro x
    rw [hlook x]
    by_cases hx : x ∈ L
    · simp [hx]
    · simp [hx, inv.dom x]
  · intro x hx
    rcases List.mem_append.mp hx with hx | hx
    · rw [List.mem_reverse] at hx
      refine ⟨dval D current + 1, ?_, ?_, ?_⟩
      · rw [hlook x, if_pos hx]
      · rw [hdval]
        have : ReachN G s current dc := hshc.1
        exact reachN_succ_tail.mpr ⟨current, this, (hLp x hx).1⟩
      · intro m hm
        by_contra hlt
        push_neg at hlt
        have hmle : m ≤ dval D current := by omega
        have := inv.level current rest rfl x m hm hmle
        exact (hLp x hx).2 this
    · obtain ⟨k, hk, hsh⟩ := inv.correct x hx
      refine ⟨k, ?_, hsh⟩
      rw [hlook x, if_neg (hVL x hx)]
      exact hk
  · rw [List.map_append, List.pairwise_append]
    refine ⟨?_, ?_, ?_⟩
    · rw [hmapRest]
      exact hsort2
    · apply pairwise_le_of_all
      intro a ha b hb
      obtain ⟨y, hy, hya⟩ := List.mem_map.mp ha
      obtain ⟨z, hz, hzb⟩ := List.mem_map.mp hb
      rw [← hya, ← hzb, hdvalL y hy, hdvalL z hz]
    · intro a ha b hb
      rw [hmapRest] at ha
      obtain ⟨z, hz, hzb⟩ := List.mem_map.mp hb
      rw [← hzb, hdvalL z hz]
      exact hwin a ha
  · intro a ha b hb
    rw [List.map_append] at ha hb
    have hmema : a ∈ rest.map (dval D) ∨ a = dval D current + 1 := by
      rcases List.mem_append.mp ha with h | h
      · left
        rwa [hmapRest] at h
      · right
        obtain ⟨z, hz, hza⟩ := List.mem_map.mp h
        rw [← hza]
        exact hdvalL z hz
    have hmemb : b ∈ rest.map (dval D) ∨ b = dval D current + 1 := by
      rcases List.mem_append.mp hb with h | h
      · left
        rwa [hmapRest] at h
      · right
        obtain ⟨z, hz, hzb⟩ := List.mem_map.mp h
        rw [← hzb]
        exact hdvalL z hz
    have ha2 : a ≤ dval D current + 1 := by
      rcases hmema with h | h
      · exact hwin a h
      · omega
    have hb2 : dval D current ≤ b := by
      rcases hmemb with h | h
      · exact hsort1 b h
      · omega
    omega
  · intro x hx
    rcases List.mem_append.mp hx with hx | hx
    · rw [List.mem_reverse] at hx
      exact Or.inl (List.mem_append.mpr (Or.inr hx))
    · by_cases hxc : x = current
      · subst hxc
        right
        intro y hy
        by_cases hyV : y ∈ V
        · exact List.mem_append.mpr (Or.inr hyV)
        · exact List.mem_append.mpr (Or.inl (List.mem_reverse.mpr (hLc y hy hyV)))
      · rcases inv.processed x hx with h | h
        · rcases List.mem_cons.mp h with h | h
          · exact absurd h hxc
          · exact Or.inl (List.mem_append.mpr (Or.inl h))
        · right
          intro y hy
          exact List.mem_append.mpr (Or.inr (h y hy))
  · intro c' cs' hq x m hm hmb
    by_cases hmd : m ≤ dval D current
    · exact List.mem_append.mpr (Or.inr (inv.level current rest rfl x m hm hmd))
    · have hc'q : c' ∈ rest ++ L := by
        rw [hq]
        exact List.mem_cons_self _ _
      have hb_le :
          dval ((L.map (fun y => (y, dval D current + 1))).reverse ++ D) c'
            ≤ dval D current + 1 := by
        rcases List.mem_append.mp hc'q with h | h
        · rw [hdval' c' (inv.q_vis c' (List.mem_cons_of_mem _ h))]
          exact hwin (dval D c') (List.mem_map_of_mem _ h)
        · rw [hdvalL c' h]
      have hm_eq : m = dval D current + 1 := by omega
      have hb_eq :
          dval ((L.map (fun y => (y, dval D current + 1))).reverse ++ D) c'
            = dval D current + 1 := by omega
      have hrest_ge : ∀ z ∈ rest, dval D current + 1 ≤ dval D z := by
        intro z hz
        cases rest with
        | nil => simp at hz
        | cons r0 rs =>
            have hc0 : c' = r0 := by
              have hform : (r0 :: rs) ++ L = r0 :: (rs ++ L) := rfl
              rw [hform] at hq
              injection hq with h1 h2
              exact h1.symm
            have hr0V : r0 ∈ V :=
              inv.q_vis r0 (List.mem_cons_of_mem _ (List.mem_cons_self _ _))
            have hval_r0 :
                dval ((L.map (fun y => (y, dval D current + 1))).reverse ++ D) r0
                  = dval D r0 := hdval' r0 hr0V
            have hr0 : dval D current + 1 ≤ dval D r0 := by
              rw [← hval_r0, ← hc0, hb_eq]
            rcases List.mem_cons.mp hz with hz | hz
            · rw [hz]
              exact hr0
            · have hsort2' := hsort2
              rw [List.map_cons, List.pairwise_cons] at hsort2'
              have := hsort2'.1 (dval D z) (List.mem_map_of_mem _ hz)
              omega
      rw [hm_eq] at hm
      obtain ⟨y, hy, hxy⟩ := reachN_succ_tail.mp hm
      have hyV : y ∈ V := inv.level current rest rfl y (dval D current) hy (le_refl _)
      by_cases hyc : y = current
      · subst hyc
        by_cases hxV : x ∈ V
        · exact List.mem_append.mpr (Or.inr hxV)
        · exact List.mem_append.mpr (Or.inl (List.mem_reverse.mpr (hLc x hxy hxV)))
      · rcases inv.processed y hyV with h | h
        · rcases List.mem_cons.mp h with h | h
          · exact absurd h hyc
          · exfalso
            obtain ⟨k, hk, hshy⟩ := inv.correct y hyV
            have hky : dval D y = k := by simp [dval, hk]
            have hkd : k ≤ dval D current := hshy.2 (dval D current) hy
            have := hrest_ge y h
            omega
        · exact List.mem_append.mpr (Or.inr (h x hxy))

theorem bfsLoop_zero (G : AdjacencyList) (q V : List Vertex)
    (D : List (Vertex × Nat)) : bfsLoop G 0 q V D = D := rfl

theorem bfsLoop_nil (G : AdjacencyList) (fuel : Nat) (V : List Vertex)
    (D : List (Vertex × Nat)) : bfsLoop G (fuel + 1) [] V D = D := rfl

theorem bfsLoop_cons (G : AdjacencyList) (fuel : Nat) (current : Vertex)
    (rest V : List Vertex) (D : List (Vertex × Nat)) :
    bfsLoop G (fuel + 1) (current :: rest) V D
      = bfsLoop G fuel
          (visitNbrs (dval D current) (nbrs G current) rest V D).1
          (visitNbrs (dval D current) (nbrs G current) rest V D).2.1
          (visitNbrs (dval D current) (nbrs G current) rest V D).2.2 := rfl

theorem bfs_final (G : AdjacencyList) (s : Vertex) (V : List Vertex)
    (D : List (Vertex × Nat)) (inv : BfsInv G s [] V D) :
    ∀ x n, lookupA D x = some n ↔ isShortest G s x n := by
  have hcl : ∀ a ∈ V, ∀ b ∈ nbrs G a, b ∈ V := by
    intro a ha
    rcases inv.processed a ha with h | h
    · simp at h
    · exact h
  intro x n
  constructor
  · intro h
    have hx : x ∈ V := (inv.dom x).mp (by rw [h]; rfl)
    obtain ⟨k, hk, hsh⟩ := inv.correct x hx
    have hnk : n = k := Option.some.inj (h.symm.trans hk)
    rw [hnk]
    exact hsh
  · intro hsh
    have hx : x ∈ V := reach_closed_subset hcl hsh.1 inv.start_vis
    obtain ⟨k, hk, hsh'⟩ := inv.correct x hx
    have hnk : n = k := isShortest_unique hsh hsh'
    rw [hk, hnk]

theorem card_unvisited_step (G : AdjacencyList) (V L : List Vertex)
    (hnd : L.Nodup) (hsub : ∀ x ∈ L, x ∈ vertsList G ∧ x ∉ V) :
    ((vertsList G).toFinset \ (L.reverse ++ V).toFinset).card + L.length
      = ((vertsList G).toFinset \ V.toFinset).card := by
  have h1 : (L.reverse ++ V).toFinset = L.toFinset ∪ V.toFinset := by
    rw [List.toFinset_append, List.toFinset_reverse]
  rw [h1]
  have h2 : (vertsList G).toFinset \ (L.toFinset ∪ V.toFinset)
      = ((vertsList G).toFinset \ V.toFinset) \ L.toFinset := by
    ext a
    simp only [Finset.mem_sdiff, Finset.mem_union]
    tauto
  rw [h2]
  have h3 : L.toFinset ⊆ (vertsList G).toFinset \ V.toFinset := by
    intro a ha
    rw [List.mem_toFinset] at ha
    obtain ⟨h4, h5⟩ := hsub a ha
    simp only [Finset.mem_sdiff, List.mem_toFinset]
    exact ⟨h4, h5⟩
  rw [Finset.card_sdiff h3]
  have h4 : L.toFinset.card = L.length := List.toFinset_card_of_nodup hnd
  have h5 : L.toFinset.card ≤ ((vertsList G).toFinset \ V.toFinset).card :=
    Finset.card_le_card h3
  omega

theorem bfsLoop_correct (G : AdjacencyList) (s : Vertex) :
    ∀ (fuel : Nat) (q V : List Vertex) (D : List (Vertex × Nat)),
      BfsInv G s q V D →
      q.length + ((vertsList G).toFinset \ V.toFinset).card ≤ fuel →
      ∀ x n, lookupA (bfsLoop G fuel q V D) x = some n ↔ isShortest G s x n := by
  intro fuel
  induction fuel with
  | zero =>
      intro q V D inv hfuel
      have hq : q = [] := by
        cases q with
        | nil => rfl
        | cons a b => simp at hfuel
      subst hq
      rw [bfsLoop_zero]
      exact bfs_final G s V D inv
  | succ fuel ih =>
      intro q V D inv hfuel
      cases q with
      | nil =>
          rw [bfsLoop_nil]
          exact bfs_final G s V D inv
      | cons current rest =>
          obtain ⟨L, hL, hnd, hprop, hcompl⟩ :=
            visitNbrs_spec (dval D current) (nbrs G current) rest V D
          have hstep : bfsLoop G (fuel + 1) (current :: rest) V D
              = bfsLoop G fuel (rest ++ L) (L.reverse ++ V)
                  ((L.map (fun x => (x, dval D current + 1))).reverse ++ D) := by
            rw [bfsLoop_cons, hL]
          rw [hstep]
          apply ih
          · exact bfs_step_inv G s current rest V D L inv hprop hcompl
          · have hcard := card_unvisited_step G V L hnd
              (fun x hx => ⟨nbrs_subset_verts (hprop x hx).1, (hprop x hx).2⟩)
            have hlen : (rest ++ L).length = rest.length + L.length :=
              List.length_append _ _
            simp only [List.length_cons] at hfuel
            omega

theorem bfs_init_inv (G : AdjacencyList) (s : Vertex) :
    BfsInv G s [s] [s] [(s, 0)] := by
  refine ⟨?_, ?_, ?_, ?_, ?_, ?_, ?_, ?_⟩
  · exact List.mem_cons_self _ _
  · intro x hx
    exact hx
  · intro x
    constructor
    · intro h
      by_cases hxs : s = x
      · rw [List.mem_singleton]
        exact hxs.symm
      · simp [lookupA, hxs] at h
    · intro h
      rw [List.mem_singleton] at h
      subst h
      simp [lookupA]
  · intro x hx
    rw [List.mem_singleton] at hx
    subst hx
    exact ⟨0, by simp [lookupA], isShortest_self G x⟩
  · simp
  · intro a ha b hb
    simp only [List.map_cons, List.map_nil, List.mem_singleton] at ha hb
    have hval : dval [(s, 0)] s = 0 := by simp [dval, lookupA]
    rw [hval] at ha hb
    omega
  · intro x hx
    exact Or.inl hx
  · intro c cs hq x n hr hn
    injection hq with h1 h2
    subst h1
    have hval : dval [(s, 0)] s = 0 := by simp [dval, lookupA]
    rw [hval] at hn
    have hn0 : n = 0 := by omega
    rw [hn0] at hr
    have hsx := reachN_zero hr
    rw [List.mem_singleton]
    exact hsx.symm

theorem bfs_distances_correct (G : AdjacencyList) (s : Vertex) :
    ∀ x n, lookupA (bfs_distances G s) x = some n ↔ isShortest G s x n := by
  unfold bfs_distances
  apply bfsLoop_correct G s ((vertsList G).length + 2) [s] [s] [(s, 0)]
    (bfs_init_inv G s)
  have h1 : ((vertsList G).toFinset \ [s].toFinset).card ≤ (vertsList G).toFinset.card :=
    Finset.card_le_card Finset.sdiff_subset
  have h2 : (vertsList G).toFinset.card ≤ (vertsList G).length :=
    List.toFinset_card_le (vertsList G)
  simp only [List.length_singleton]
  omega

theorem exists_shortest {G : AdjacencyList} {s x : Vertex}
    (h : Reach G s x) : ∃ m, isShortest G s x m := by
  classical
  have hex : ∃ m, ReachN G s x m := h
  refine ⟨Nat.find hex, Nat.find_spec hex, ?_⟩
  intro m hm
  exact Nat.find_min' hex hm

theorem bfs_isSome_iff_reach (G : AdjacencyList) (s x : Vertex) :
    (lookupA (bfs_distances G s) x).isSome ↔ Reach G s x := by
  constructor
  · intro h
    obtain ⟨n, hn⟩ := Option.isSome_iff_exists.mp h
    exact ⟨n, ((bfs_distances_correct G s x n).mp hn).1⟩
  · intro h
    obtain ⟨m, hm⟩ := exists_shortest h
    rw [(bfs_distances_correct G s x m).mpr hm]
    rfl

/-- C1: for every adjacency structure and source vertex, bfs_distances
returns a distance map that records exactly the vertices reachable from
the source, each with the minimum number of edges from the source, the
source itself mapped to 0; on the structure built from the edges (1,2),
(2,3), (3,4), (4,5), (5,6), the search from 1 records distances 0 to 5
for the vertices 1 to 6. -/
theorem C1_bfs_minimum_distances (G : AdjacencyList) (s : Vertex) :
    (∀ v n, lookupA (bfs_distances G s) v = some n ↔ isShortest G s v n) ∧
    (∀ v, Reach G s v → (lookupA (bfs_distances G s) v).isSome) ∧
    lookupA (bfs_distances G s) s = some 0 ∧
    (lookupA (bfs_distances (build_adjacency_list
        [(1, 2), (2, 3), (3, 4), (4, 5), (5, 6)]) 1) 1 = some 0 ∧
     lookupA (bfs_distances (build_adjacency_list
        [(1, 2), (2, 3), (3, 4), (4, 5), (5, 6)]) 1) 2 = some 1 ∧
     lookupA (bfs_distances (build_adjacency_list
        [(1, 2), (2, 3), (3, 4), (4, 5), (5, 6)]) 1) 3 = some 2 ∧
     lookupA (bfs_distances (build_adjacency_list
        [(1, 2), (2, 3), (3, 4), (4, 5), (5, 6)]) 1) 4 = some 3 ∧
     lookupA (bfs_distances (build_adjacency_list
        [(1, 2), (2, 3), (3, 4), (4, 5), (5, 6)]) 1) 5 = some 4 ∧
     lookupA (bfs_distances (build_adjacency_list
        [(1, 2), (2, 3), (3, 4), (4, 5), (5, 6)]) 1) 6 = some 5) := by
  refine ⟨bfs_distances_correct G s, ?_, ?_, by decide⟩
  · intro v hv
    exact (bfs_isSome_iff_reach G s v).mpr hv
  · exact (bfs_distances_correct G s s 0).mpr (isShortest_self G s)

/-- C7: for every source vertex, even one absent from the structure's
keys, bfs_distances returns a map containing the entry mapping the source
to 0, and a vertex with no recorded distance is surfaced by the caller's
query as the sentinel, the largest usize value. -/
theorem C7_bfs_absent_source (G : AdjacencyList) (s : Vertex)
    (h : s ∉ keys G) :
    lookupA (bfs_distances G s) s = some 0 ∧
    (∀ v, lookupA (bfs_distances G s) v = none →
        queryDistance (bfs_distances G s) v = USIZE_MAX) := by
  constructor
  · exact (bfs_distances_correct G s s 0).mpr (isShortest_self G s)
  · intro v hv
    unfold queryDistance
    rw [hv]
    rfl

/-- C7 witness: source 7 is absent from the structure built from the edge
(1, 2); the map still holds the entry for 7 at distance 0, and querying
the unreached vertex 2 yields the sentinel. -/
theorem C7_witness :
    lookupA (bfs_distances (build_adjacency_list [(1, 2)]) 7) 7 = some 0 ∧
    queryDistance (bfs_distances (build_adjacency_list [(1, 2)]) 7) 2 = USIZE_MAX :=
  ⟨(C7_bfs_absent_source (build_adjacency_list [(1, 2)]) 7 (by decide)).1,
   (C7_bfs_absent_source (build_adjacency_list [(1, 2)]) 7 (by decide)).2 2 (by decide)⟩

/- Depth-first search: lemmas about reachability avoiding a vertex list. -/

theorem ra_head_not_mem {G : AdjacencyList} {A : List Vertex} {u x : Vertex}
    (h : ReachAvoid G A u x) : u ∉ A := by
  cases h with
  | refl _ h => exact h
  | step h _ _ => exact h

theorem ra_last_not_mem {G : AdjacencyList} {A : List Vertex} {u x : Vertex}
    (h : ReachAvoid G A u x) : x ∉ A := by
  induction h with
  | refl _ h => exact h
  | step _ _ _ ih => exact ih

theorem ra_mono {G : AdjacencyList} {A B : List Vertex} {u x : Vertex}
    (hsub : ∀ y ∈ B, y ∈ A) (h : ReachAvoid G A u x) : ReachAvoid G B u x := by
  induction h with
  | refl a ha => exact ReachAvoid.refl a (fun hm => ha (hsub a hm))
  | step hA hv _ ih => exact ReachAvoid.step (fun hm => hA (hsub _ hm)) hv ih

theorem ra_reach {G : AdjacencyList} {A : List Vertex} {u x : Vertex}
    (h : ReachAvoid G A u x) : Reach G u x := by
  induction h with
  | refl a _ => exact reach_refl G a
  | step _ hv _ ih => exact reach_trans ⟨1, ReachN.step hv (ReachN.refl _)⟩ ih

theorem reach_to_avoid {G : AdjacencyList} {A : List Vertex} {k : Vertex}
    (hdisj : ∀ v, Reach G k v → v ∉ A) :
    ∀ {w x : Vertex} {n : Nat}, ReachN G w x n → Reach G k w →
      ReachAvoid G A w x := by
  intro w x n h
  induction h with
  | refl u => exact fun hw => ReachAvoid.refl u (hdisj u hw)
  | @step u v w' n' hv hr ih =>
      intro hu
      refine ReachAvoid.step (hdisj u hu) hv (ih ?_)
      exact reach_trans hu ⟨1, ReachN.step hv (ReachN.refl v)⟩

theorem avoid_insert {G : AdjacencyList} {A : List Vertex} {u w x : Vertex}
    (h : ReachAvoid G A w x) :
    x = u ∨ ReachAvoid G (u :: A) w x ∨
      ∃ y ∈ nbrs G u, ReachAvoid G (u :: A) y x := by
  induction h with
  | refl a ha =>
      by_cases hau : a = u
      · exact Or.inl hau
      · refine Or.inr (Or.inl (ReachAvoid.refl a ?_))
        intro hmem
        rcases List.mem_cons.mp hmem with h' | h'
        · exact hau h'
        · exact ha h'
  | @step a v w' hA hv hr ih =>
      rcases ih with h | h | h
      · exact Or.inl h
      · by_cases hau : a = u
        · subst hau
          exact Or.inr (Or.inr ⟨v, hv, h⟩)
        · refine Or.inr (Or.inl (ReachAvoid.step ?_ hv h))
          intro hmem
          rcases List.mem_cons.mp hmem with h' | h'
          · exact hau h'
          · exact hA h'
      · exact Or.inr (Or.inr h)

theorem mem_keys_of_nbrs_nonempty {G : AdjacencyList} {v y : Vertex}
    (h : y ∈ nbrs G v) : v ∈ keys G := by
  unfold nbrs at h
  cases hl : lookupA G v with
  | none =>
      rw [hl] at h
      simp at h
  | some ns =>
      exact lookupA_isSome_iff.mp (by rw [hl]; rfl)

theorem reach_mem_keys {G : AdjacencyList} (hs : Symm G) :
    ∀ {u x : Vertex} {n : Nat}, ReachN G u x n → u ∈ keys G → x ∈ keys G := by
  intro u x n h
  induction h with
  | refl u => exact fun h => h
  | @step u' v' w' n' hv hr ih =>
      intro _
      exact ih (mem_keys_of_nbrs_nonempty ((hs u' v').mp hv))

theorem nbrs_nil_of_not_verts {G : AdjacencyList} {node : Vertex}
    (h : node ∉ vertsList G) : nbrs G node = [] := by
  cases hn : nbrs G node with
  | nil => rfl
  | cons y ys =>
      exact absurd
        (keys_subset_verts (mem_keys_of_nbrs_nonempty (hn ▸ List.mem_cons_self y ys)))
        h

theorem dfsLoop_zero (G : AdjacencyList) (S V C : List Vertex) :
    dfsLoop G 0 S V C = (V, C) := rfl

theorem dfsLoop_nil (G : AdjacencyList) (fuel : Nat) (V C : List Vertex) :
    dfsLoop G (fuel + 1) [] V C = (V, C) := rfl

theorem dfsLoop_cons_vis (G : AdjacencyList) (fuel : Nat) (node : Vertex)
    (stk V C : List Vertex) (h : node ∈ V) :
    dfsLoop G (fuel + 1) (node :: stk) V C = dfsLoop G fuel stk V C := by
  simp [dfsLoop, h]

theorem dfsLoop_cons_new (G : AdjacencyList) (fuel : Nat) (node : Vertex)
    (stk V C : List Vertex) (h : node ∉ V) :
    dfsLoop G (fuel + 1) (node :: stk) V C
      = dfsLoop G fuel ((nbrs G node).reverse ++ stk) (node :: V) (node :: C) := by
  simp [dfsLoop, h]

theorem dfs_fuel_step (G : AdjacencyList) (V : List Vertex) (node : Vertex)
    (hnode : node ∉ V) (hmem : node ∈ vertsList G) :
    Finset.sum ((vertsList G).toFinset \ (node :: V).toFinset)
        (fun v => 1 + (nbrs G v).length)
      + (1 + (nbrs G node).length)
      = Finset.sum ((vertsList G).toFinset \ V.toFinset)
        (fun v => 1 + (nbrs G v).length) := by
  have h1 : (vertsList G).toFinset \ (node :: V).toFinset
      = ((vertsList G).toFinset \ V.toFinset).erase node := by
    ext a
    simp only [List.toFinset_cons, Finset.mem_sdiff, Finset.mem_insert,
      Finset.mem_erase, List.mem_toFinset]
    tauto
  rw [h1]
  refine Finset.sum_erase_add _ _ ?_
  simp only [Finset.mem_sdiff, List.mem_toFinset]
  exact ⟨hmem, hnode⟩

theorem dfs_fuel_step_out (G : AdjacencyList) (V : List Vertex) (node : Vertex)
    (hmem : node ∉ vertsList G) :
    (vertsList G).toFinset \ (node :: V).toFinset
      = (vertsList G).toFinset \ V.toFinset := by
  ext a
  simp only [List.toFinset_cons, Finset.mem_sdiff, Finset.mem_insert,
    List.mem_toFinset]
  constructor
  · intro ⟨h1, h2⟩
    exact ⟨h1, fun h => h2 (Or.inr h)⟩
  · intro ⟨h1, h2⟩
    refine ⟨h1, fun h => ?_⟩
    rcases h with h | h
    · rw [h] at h1
      exact hmem h1
    · exact h2 h

theorem dfs_translate (G : AdjacencyList) (node : Vertex) (V stk : List Vertex)
    (hnode : node ∉ V) (x : Vertex) :
    ((∃ y ∈ (nbrs G node).reverse ++ stk, ReachAvoid G (node :: V) y x) ∨ x = node)
      ↔ ∃ y ∈ node :: stk, ReachAvoid G V y x := by
  constructor
  · intro h
    rcases h with ⟨y, hy, hra⟩ | h
    · have hra' : ReachAvoid G V y x :=
        ra_mono (fun z hz => List.mem_cons_of_mem _ hz) hra
      rcases List.mem_append.mp hy with hy | hy
      · rw [List.mem_reverse] at hy
        exact ⟨node, List.mem_cons_self _ _, ReachAvoid.step hnode hy hra'⟩
      · exact ⟨y, List.mem_cons_of_mem _ hy, hra'⟩
    · subst h
      exact ⟨x, List.mem_cons_self _ _, ReachAvoid.refl x hnode⟩
  · rintro ⟨y, hy, hra⟩
    rcases avoid_insert hra with h | h | h
    · exact Or.inr h
    · rcases List.mem_cons.mp hy with hy | hy
      · subst hy
        exact absurd (List.mem_cons_self y _) (ra_head_not_mem h)
      · exact Or.inl ⟨y, List.mem_append.mpr (Or.inr hy), h⟩
    · obtain ⟨z, hz, hraz⟩ := h
      exact Or.inl ⟨z, List.mem_append.mpr (Or.inl (List.mem_reverse.mpr hz)), hraz⟩

theorem dfsLoop_spec (G : AdjacencyList) :
    ∀ (fuel : Nat) (S V C : List Vertex),
      S.length + Finset.sum ((vertsList G).toFinset \ V.toFinset)
          (fun v => 1 + (nbrs G v).length) ≤ fuel →
      (∀ x ∈ C, x ∈ V) →
      C.Nodup →
      (∀ x, x ∈ (dfsLoop G fuel S V C).1 ↔ x ∈ V ∨ ∃ y ∈ S, ReachAvoid G V y x) ∧
      (∀ x, x ∈ (dfsLoop G fuel S V C).2 ↔ x ∈ C ∨ ∃ y ∈ S, ReachAvoid G V y x) ∧
      (∀ x ∈ (dfsLoop G fuel S V C).2, x ∈ (dfsLoop G fuel S V C).1) ∧
      (dfsLoop G fuel S V C).2.Nodup := by
  intro fuel
  induction fuel with
  | zero =>
      intro S V C hfuel hC hCnd
      have hS : S = [] := by
        cases S with
        | nil => rfl
        | cons a b => simp at hfuel
      subst hS
      rw [dfsLoop_zero]
      refine ⟨?_, ?_, hC, hCnd⟩
      · intro x
        simp
      · intro x
        simp
  | succ fuel ih =>
      intro S V C hfuel hC hCnd
      cases S with
      | nil =>
          rw [dfsLoop_nil]
          refine ⟨?_, ?_, hC, hCnd⟩
          · intro x
            simp
          · intro x
            simp
      | cons node stk =>
          by_cases hnode : node ∈ V
          · have hfuel' : stk.length + Finset.sum
                ((vertsList G).toFinset \ V.toFinset)
                (fun v => 1 + (nbrs G v).length) ≤ fuel := by
              simp only [List.length_cons] at hfuel
              omega
            rw [dfsLoop_cons_vis G fuel node stk V C hnode]
            obtain ⟨h1, h2, h3, h4⟩ := ih stk V C hfuel' hC hCnd
            have htr : ∀ x, (∃ y ∈ stk, ReachAvoid G V y x)
                ↔ ∃ y ∈ node :: stk, ReachAvoid G V y x := by
              intro x
              constructor
              · rintro ⟨y, hy, hra⟩
                exact ⟨y, List.mem_cons_of_mem _ hy, hra⟩
              · rintro ⟨y, hy, hra⟩
                rcases List.mem_cons.mp hy with hy | hy
                · subst hy
                  exact absurd hnode (ra_head_not_mem hra)
                · exact ⟨y, hy, hra⟩
            refine ⟨?_, ?_, h3, h4⟩
            · intro x
              rw [h1 x, htr x]
            · intro x
              rw [h2 x, htr x]
          · have hCV' : ∀ x ∈ node :: C, x ∈ node :: V := by
              intro x hx
              rcases List.mem_cons.mp hx with hx | hx
              · exact hx ▸ List.mem_cons_self _ _
              · exact List.mem_cons_of_mem _ (hC x hx)
            have hCnd' : (node :: C).Nodup :=
              List.nodup_cons.mpr ⟨fun h => hnode (hC node h), hCnd⟩
            have hfuel' : ((nbrs G node).reverse ++ stk).length + Finset.sum
                ((vertsList G).toFinset \ (node :: V).toFinset)
                (fun v => 1 + (nbrs G v).length) ≤ fuel := by
              by_cases hmem : node ∈ vertsList G
              · have hstep := dfs_fuel_step G V node hnode hmem
                simp only [List.length_append, List.length_reverse,
                  List.length_cons] at hfuel ⊢
                omega
              · have hnil := nbrs_nil_of_not_verts hmem
                rw [dfs_fuel_step_out G V node hmem, hnil]
                simp only [List.reverse_nil, List.nil_append,
                  List.length_cons] at hfuel ⊢
                omega
            rw [dfsLoop_cons_new G fuel node stk V C hnode]
            obtain ⟨h1, h2, h3, h4⟩ := ih _ _ _ hfuel' hCV' hCnd'
            refine ⟨?_, ?_, h3, h4⟩
            · intro x
              rw [h1 x]
              have ht := dfs_translate G node V stk hnode x
              constructor
              · rintro (h | h)
                · rcases List.mem_cons.mp h with h | h
                  · exact Or.inr (ht.mp (Or.inr h))
                  · exact Or.inl h
                · exact Or.inr (ht.mp (Or.inl h))
              · rintro (h | h)
                · exact Or.inl (List.mem_cons_of_mem _ h)
                · rcases ht.mpr h with ⟨y, hy, hra⟩ | h
                  · exact Or.inr ⟨y, hy, hra⟩
                  · refine Or.inl ?_
                    rw [h]
                    exact List.mem_cons_self _ _
            · intro x
              rw [h2 x]
              have ht := dfs_translate G node V stk hnode x
              constructor
              · rintro (h | h)
                · rcases List.mem_cons.mp h with h | h
                  · exact Or.inr (ht.mp (Or.inr h))
                  · exact Or.inl h
                · exact Or.inr (ht.mp (Or.inl h))
              · rintro (h | h)
                · exact Or.inl (List.mem_cons_of_mem _ h)
                · rcases ht.mpr h with ⟨y, hy, hra⟩ | h
                  · exact Or.inr ⟨y, hy, hra⟩
                  · refine Or.inl ?_
                    rw [h]
                    exact List.mem_cons_self _ _

theorem dfs_spec (G : AdjacencyList) (start : Vertex) (V C : List Vertex)
    (hC : ∀ x ∈ C, x ∈ V) (hCnd : C.Nodup) :
    (∀ x, x ∈ (dfs G start V C).1 ↔ x ∈ V ∨ ReachAvoid G V start x) ∧
    (∀ x, x ∈ (dfs G start V C).2 ↔ x ∈ C ∨ ReachAvoid G V start x) ∧
    (∀ x ∈ (dfs G start V C).2, x ∈ (dfs G start V C).1) ∧
    (dfs G start V C).2.Nodup := by
  have hfuel : [start].length + Finset.sum
      ((vertsList G).toFinset \ V.toFinset)
      (fun v => 1 + (nbrs G v).length) ≤ dfsFuel G := by
    unfold dfsFuel
    have hsub : Finset.sum ((vertsList G).toFinset \ V.toFinset)
          (fun v => 1 + (nbrs G v).length)
        ≤ Finset.sum (vertsList G).toFinset (fun v => 1 + (nbrs G v).length) :=
      Finset.sum_le_sum_of_subset Finset.sdiff_subset
    simp only [List.length_singleton]
    omega
  obtain ⟨h1, h2, h3, h4⟩ := dfsLoop_spec G (dfsFuel G) [start] V C hfuel hC hCnd
  unfold dfs
  refine ⟨?_, ?_, h3, h4⟩
  · intro x
    rw [h1 x]
    simp
  · intro x
    rw [h2 x]
    simp

theorem cnLoop_skip (G : AdjacencyList) (k : Vertex) (ks V : List Vertex)
    (comps : List (List Vertex)) (h : k ∈ V) :
    cnLoop G (k :: ks) V comps = cnLoop G ks V comps := by
  simp [cnLoop, h]

theorem cnLoop_new (G : AdjacencyList) (k : Vertex) (ks V : List Vertex)
    (comps : List (List Vertex)) (h : k ∉ V) :
    cnLoop G (k :: ks) V comps
      = cnLoop G ks (dfs G k V []).1 (comps ++ [(dfs G k V []).2]) := by
  simp [cnLoop, h]

theorem ra_iff_reach (G : AdjacencyList) (hs : Symm G) (V : List Vertex)
    (hcl : ∀ x ∈ V, ∀ y ∈ nbrs G x, y ∈ V) (k : Vertex) (hk : k ∉ V) :
    ∀ x, ReachAvoid G V k x ↔ Reach G k x := by
  intro x
  constructor
  · exact ra_reach
  · intro h
    have hdisj : ∀ v, Reach G k v → v ∉ V := by
      intro v hv hvV
      obtain ⟨n, hn⟩ := reach_symm hs hv
      exact hk (reach_closed_subset hcl hn hvV)
    obtain ⟨n, hn⟩ := h
    exact reach_to_avoid hdisj hn (reach_refl G k)

theorem cnLoop_spec (G : AdjacencyList) (hs : Symm G) :
    ∀ (ks V : List Vertex) (comps : List (List Vertex)),
      (∀ x, x ∈ V ↔ ∃ c ∈ comps, x ∈ c) →
      comps.Pairwise (fun c d => ∀ x ∈ c, x ∉ d) →
      (∀ c ∈ comps, c.Nodup) →
      (∀ x ∈ V, ∀ y ∈ nbrs G x, y ∈ V) →
      (∀ c ∈ comps, ∃ k, k ∈ keys G ∧ ∀ x, x ∈ c ↔ Reach G k x) →
      (∀ k ∈ ks, k ∈ keys G) →
      (cnLoop G ks V comps).Pairwise (fun c d => ∀ x ∈ c, x ∉ d) ∧
      (∀ c ∈ cnLoop G ks V comps, c.Nodup) ∧
      (∀ c ∈ cnLoop G ks V comps, ∃ k, k ∈ keys G ∧ ∀ x, x ∈ c ↔ Reach G k x) ∧
      (∀ x, (∃ c ∈ cnLoop G ks V comps, x ∈ c) ↔ x ∈ V ∨ ∃ k ∈ ks, Reach G k x) := by
  intro ks
  induction ks with
  | nil =>
      intro V comps h1 h2 h3 h4 h5 h6
      refine ⟨h2, h3, h5, ?_⟩
      intro x
      rw [show cnLoop G [] V comps = comps from rfl, ← h1 x]
      simp
  | cons k ks ih =>
      intro V comps h1 h2 h3 h4 h5 h6
      by_cases hk : k ∈ V
      · rw [cnLoop_skip G k ks V comps hk]
        obtain ⟨g1, g2, g3, g4⟩ := ih V comps h1 h2 h3 h4 h5
          (fun k' hk' => h6 k' (List.mem_cons_of_mem _ hk'))
        refine ⟨g1, g2, g3, ?_⟩
        intro x
        rw [g4 x]
        constructor
        · rintro (h | ⟨k', hk', h⟩)
          · exact Or.inl h
          · exact Or.inr ⟨k', List.mem_cons_of_mem _ hk', h⟩
        · rintro (h | ⟨k', hk', h⟩)
          · exact Or.inl h
          · rcases List.mem_cons.mp hk' with hk' | hk'
            · subst hk'
              obtain ⟨n, hn⟩ := h
              exact Or.inl (reach_closed_subset h4 hn hk)
            · exact Or.inr ⟨k', hk', h⟩
      · rw [cnLoop_new G k ks V comps hk]
        obtain ⟨d1, d2, d3, d4⟩ := dfs_spec G k V [] (by simp) (by simp)
        have hra := ra_iff_reach G hs V h4 k hk
        have hmem1 : ∀ x, x ∈ (dfs G k V []).1 ↔ x ∈ V ∨ Reach G k x := by
          intro x
          rw [d1 x, hra x]
        have hmem2 : ∀ x, x ∈ (dfs G k V []).2 ↔ Reach G k x := by
          intro x
          rw [d2 x, hra x]
          simp
        have h1' : ∀ x, x ∈ (dfs G k V []).1 ↔
            ∃ c ∈ comps ++ [(dfs G k V []).2], x ∈ c := by
          intro x
          rw [hmem1 x]
          constructor
          · rintro (h | h)
            · obtain ⟨c, hc, hx⟩ := (h1 x).mp h
              exact ⟨c, List.mem_append.mpr (Or.inl hc), hx⟩
            · exact ⟨(dfs G k V []).2,
                List.mem_append.mpr (Or.inr (List.mem_cons_self _ _)),
                (hmem2 x).mpr h⟩
          · rintro ⟨c, hc, hx⟩
            rcases List.mem_append.mp hc with hc | hc
            · exact Or.inl ((h1 x).mpr ⟨c, hc, hx⟩)
            · rw [List.mem_singleton] at hc
              subst hc
              exact Or.inr ((hmem2 x).mp hx)
        have h2' : (comps ++ [(dfs G k V []).2]).Pairwise
            (fun c d => ∀ x ∈ c, x ∉ d) := by
          rw [List.pairwise_append]
          refine ⟨h2, by simp, ?_⟩
          intro c hc d hd x hxc
          rw [List.mem_singleton] at hd
          subst hd
          intro hxd
          have hxV : x ∈ V := (h1 x).mpr ⟨c, hc, hxc⟩
          have hav : ReachAvoid G V k x := by
            have := (d2 x).mp hxd
            simpa using this
          exact ra_last_not_mem hav hxV
        have h3' : ∀ c ∈ comps ++ [(dfs G k V []).2], c.Nodup := by
          intro c hc
          rcases List.mem_append.mp hc with hc | hc
          · exact h3 c hc
          · rw [List.mem_singleton] at hc
            subst hc
            exact d4
        have h4' : ∀ x ∈ (dfs G k V []).1, ∀ y ∈ nbrs G x,
            y ∈ (dfs G k V []).1 := by
          intro x hx y hy
          rcases (hmem1 x).mp hx with h | h
          · exact (hmem1 y).mpr (Or.inl (h4 x h y hy))
          · refine (hmem1 y).mpr (Or.inr ?_)
            exact reach_trans h ⟨1, ReachN.step hy (ReachN.refl y)⟩
        have h5' : ∀ c ∈ comps ++ [(dfs G k V []).2],
            ∃ k', k' ∈ keys G ∧ ∀ x, x ∈ c ↔ Reach G k' x := by
          intro c hc
          rcases List.mem_append.mp hc with hc | hc
          · exact h5 c hc
          · rw [List.mem_singleton] at hc
            subst hc
            exact ⟨k, h6 k (List.mem_cons_self _ _), hmem2⟩
        obtain ⟨g1, g2, g3, g4⟩ := ih (dfs G k V []).1 (comps ++ [(dfs G k V []).2])
          h1' h2' h3' h4' h5' (fun k' hk' => h6 k' (List.mem_cons_of_mem _ hk'))
        refine ⟨g1, g2, g3, ?_⟩
        intro x
        rw [g4 x]
        constructor
        · rintro (h | ⟨k', hk', h⟩)
          · rcases (hmem1 x).mp h with h | h
            · exact Or.inl h
            · exact Or.inr ⟨k, List.mem_cons_self _ _, h⟩
          · exact Or.inr ⟨k', List.mem_cons_of_mem _ hk', h⟩
        · rintro (h | ⟨k', hk', h⟩)
          · exact Or.inl ((hmem1 x).mpr (Or.inl h))
          · rcases List.mem_cons.mp hk' with hk' | hk'
            · subst hk'
              exact Or.inl ((hmem1 x).mpr (Or.inr h))
            · exact Or.inr ⟨k', hk', h⟩

theorem connected_nodes_spec (G : AdjacencyList) (hs : Symm G) :
    (connected_nodes G).Pairwise (fun c d => ∀ x ∈ c, x ∉ d) ∧
    (∀ c ∈ connected_nodes G, c.Nodup) ∧
    (∀ c ∈ connected_nodes G, ∃ k, k ∈ keys G ∧ ∀ x, x ∈ c ↔ Reach G k x) ∧
    (∀ x, (∃ c ∈ connected_nodes G, x ∈ c) ↔ x ∈ keys G) := by
  obtain ⟨g1, g2, g3, g4⟩ := cnLoop_spec G hs (keys G) [] []
    (by simp) (by simp) (by simp) (by simp) (by simp) (fun k hk => hk)
  refine ⟨g1, g2, g3, ?_⟩
  intro x
  unfold connected_nodes
  rw [g4 x]
  simp only [List.not_mem_nil, false_or]
  constructor
  · rintro ⟨k, hk, h⟩
    obtain ⟨n, hn⟩ := h
    exact reach_mem_keys hs hn hk
  · intro h
    exact ⟨x, h, reach_refl G x⟩

theorem countP_eq_one_of (comps : List (List Vertex)) (x : Vertex)
    (hp : comps.Pairwise (fun c d => ∀ z ∈ c, z ∉ d))
    (hx : ∃ c ∈ comps, x ∈ c) :
    comps.countP (fun c => decide (x ∈ c)) = 1 := by
  induction comps with
  | nil => simp at hx
  | cons c t ih =>
      rw [List.pairwise_cons] at hp
      by_cases hxc : x ∈ c
      · have hzero : t.countP (fun c => decide (x ∈ c)) = 0 := by
          rw [List.countP_eq_zero]
          intro d hd
          simp only [decide_eq_true_eq]
          exact hp.1 d hd x hxc
        rw [List.countP_cons]
        simp [hxc, hzero]
      · obtain ⟨c', hc', hxc'⟩ := hx
        rcases List.mem_cons.mp hc' with h | h
        · subst h
          exact absurd hxc' hxc
        · rw [List.countP_cons]
          simpa [hxc] using ih hp.2 ⟨c', h, hxc'⟩

/-- C2: for every adjacency structure satisfying the data model's symmetry
invariant, connected_nodes partitions the key set exactly: the union of
the components is the key set, components are pairwise disjoint, each
component lists every vertex once, and every key vertex lies in exactly
one component. -/
theorem C2_connected_nodes_partition (G : AdjacencyList) (hs : Symm G) :
    (∀ x, x ∈ keys G ↔ ∃ c ∈ connected_nodes G, x ∈ c) ∧
    (connected_nodes G).Pairwise (fun c d => ∀ x ∈ c, x ∉ d) ∧
    (∀ c ∈ connected_nodes G, c.Nodup) ∧
    (∀ x ∈ keys G, (connected_nodes G).countP (fun c => decide (x ∈ c)) = 1) := by
  obtain ⟨g1, g2, g3, g4⟩ := connected_nodes_spec G hs
  refine ⟨fun x => (g4 x).symm, g1, g2, ?_⟩
  intro x hx
  exact countP_eq_one_of _ x g1 ((g4 x).mpr hx)

/-- C2 witness: on the path graph over the vertices 1 to 6, the key 6 lies
in a component of the output. -/
theorem C2_witness :
    ∃ c ∈ connected_nodes (build_adjacency_list
      [(1, 2), (2, 3), (3, 4), (4, 5), (5, 6)]), 6 ∈ c :=
  ((C2_connected_nodes_partition _ (build_symm _)).1 6).mp (by decide)

/-- C4: over the structure built from an edge list, two key vertices lie
in one common component of the connected_nodes output exactly when the
second is recorded in the distance map of bfs_distances from the first. -/
theorem C4_components_iff_bfs (edges : List Edge) (u v : Vertex)
    (hu : u ∈ keys (build_adjacency_list edges))
    (hv : v ∈ keys (build_adjacency_list edges)) :
    (∃ c ∈ connected_nodes (build_adjacency_list edges), u ∈ c ∧ v ∈ c) ↔
      (lookupA (bfs_distances (build_adjacency_list edges) u) v).isSome := by
  have hs := build_symm edges
  rw [bfs_isSome_iff_reach]
  obtain ⟨g1, g2, g3, g4⟩ := connected_nodes_spec (build_adjacency_list edges) hs
  constructor
  · rintro ⟨c, hc, hu', hv'⟩
    obtain ⟨k, hk, hchar⟩ := g3 c hc
    exact reach_trans (reach_symm hs ((hchar u).mp hu')) ((hchar v).mp hv')
  · intro h
    obtain ⟨c, hc, hu'⟩ := (g4 u).mpr hu
    obtain ⟨k, hk, hchar⟩ := g3 c hc
    exact ⟨c, hc, hu', (hchar v).mpr (reach_trans ((hchar u).mp hu') h)⟩

/-- C4 witness: in the graph built from the edges (1, 2) and (2, 3), the
keys 1 and 3 share a component, as 3 is recorded by the search from 1. -/
theorem C4_witness :
    ∃ c ∈ connected_nodes (build_adjacency_list [(1, 2), (2, 3)]),
      1 ∈ c ∧ 3 ∈ c :=
  (C4_components_iff_bfs [(1, 2), (2, 3)] 1 3 (by decide) (by decide)).mpr
    (by decide)
